import Mathlib

/-!
Verification of a Brainfuck interpreter (`src/main.rs`).

The pipeline is: `parse` (tokenizer) → `compile` (bracket-matching compiler
producing jump-resolved opcodes) → `condense` (run-length optimizer) →
`interpret` (tape machine), plus `Tape`, and `fill_buffer` for line-buffered
input.

Encoding conventions:
* A Rust `Vec` used as a stack (push/pop at the end) is modelled as a Lean
  `List` in the Vec's natural index order; `push x` is `l ++ [x]`, `pop` is
  `(l.getLast?, l.dropLast)`.  The compiler's `brackets` stack and the
  optimizer's `grouped` accumulator are instead modelled head-as-top
  (`j :: rest` is a Vec whose last element is `j`), which is the same stack.
* `u8` / `Wrapping<u8>` values are `Nat` with explicit `% 256` where the Rust
  code performs wrapping arithmetic.
* `io::stdin().read_line` is modelled by a list of pending input lines, each a
  list of bytes including the line terminator byte.
-/

namespace BF

/-- The eight Brainfuck tokens (`enum Token`). -/
inductive Token
  | T_GT
  | T_LT
  | T_PLUS
  | T_MINUS
  | T_DOT
  | T_COMMA
  | T_LBRACKET
  | T_RBRACKET
deriving DecidableEq

/-- The per-character match inside `parse`: the eight command characters map to
their token, anything else to `none` (silently dropped). -/
def charToken : Char → Option Token
  | '>' => some Token.T_GT
  | '<' => some Token.T_LT
  | '+' => some Token.T_PLUS
  | '-' => some Token.T_MINUS
  | '.' => some Token.T_DOT
  | ',' => some Token.T_COMMA
  | '[' => some Token.T_LBRACKET
  | ']' => some Token.T_RBRACKET
  | _ => none

/-- `parse`: push a token for each command character, skip everything else. -/
def parse : List Char → List Token
  | [] => []
  | c :: cs =>
    match charToken c with
    | some t => t :: parse cs
    | none => parse cs

/-- `enum OpCode`. -/
inductive OpCode
  | Right
  | Left
  | Inc
  | Dec
  | Print
  | Read
  | JumpIfZero : Nat → OpCode
  | Jump : Nat → OpCode
deriving DecidableEq

/-- `enum CondensedOpCode`.  The payloads of `Right`/`Left` (`u8`) and
`Inc`/`Dec` (`Wrapping<u8>`) are `Nat`s kept below 256 by the optimizer. -/
inductive CondensedOpCode
  | Right : Nat → CondensedOpCode
  | Left : Nat → CondensedOpCode
  | Inc : Nat → CondensedOpCode
  | Dec : Nat → CondensedOpCode
  | Print
  | Read
  | JumpIfZero : Nat → CondensedOpCode
  | Jump : Nat → CondensedOpCode
deriving DecidableEq

/-- The loop body of `compile`: `idx` is the current token index, `brackets`
the stack of pending open-bracket indices (head-as-top), `bytecode` the
emitted instructions.  On `]` with stack top `j`, a `Jump j` is pushed and the
placeholder at `j` is back-patched to `JumpIfZero (idx + 1)`. -/
def compileAux : List Token → Nat → List Nat → List OpCode → Except String (List OpCode)
  | [], _, brackets, bytecode =>
    if brackets = [] then Except.ok bytecode else Except.error "Unmatched left bracket!"
  | t :: ts, idx, brackets, bytecode =>
    match t with
    | Token.T_GT => compileAux ts (idx + 1) brackets (bytecode ++ [OpCode.Right])
    | Token.T_LT => compileAux ts (idx + 1) brackets (bytecode ++ [OpCode.Left])
    | Token.T_PLUS => compileAux ts (idx + 1) brackets (bytecode ++ [OpCode.Inc])
    | Token.T_MINUS => compileAux ts (idx + 1) brackets (bytecode ++ [OpCode.Dec])
    | Token.T_DOT => compileAux ts (idx + 1) brackets (bytecode ++ [OpCode.Print])
    | Token.T_COMMA => compileAux ts (idx + 1) brackets (bytecode ++ [OpCode.Read])
    | Token.T_LBRACKET =>
      compileAux ts (idx + 1) (idx :: brackets) (bytecode ++ [OpCode.JumpIfZero 0])
    | Token.T_RBRACKET =>
      match brackets with
      | [] => Except.error "Unmatched right bracket!"
      | j :: rest =>
        compileAux ts (idx + 1) rest
          ((bytecode ++ [OpCode.Jump j]).set j (OpCode.JumpIfZero (idx + 1)))

/-- `fn compile`. -/
def compile (toks : List Token) : Except String (List OpCode) :=
  compileAux toks 0 [] []

/-- Modelled from the spec: depth-first bracket matching via an explicit stack.
Returns the list of (open index, close index) pairs of matching brackets, or
`none` when the nesting is ill-formed. -/
def matchAux : List Token → Nat → List Nat → Option (List (Nat × Nat))
  | [], _, brackets => if brackets = [] then some [] else none
  | t :: ts, idx, brackets =>
    match t with
    | Token.T_GT => matchAux ts (idx + 1) brackets
    | Token.T_LT => matchAux ts (idx + 1) brackets
    | Token.T_PLUS => matchAux ts (idx + 1) brackets
    | Token.T_MINUS => matchAux ts (idx + 1) brackets
    | Token.T_DOT => matchAux ts (idx + 1) brackets
    | Token.T_COMMA => matchAux ts (idx + 1) brackets
    | Token.T_LBRACKET => matchAux ts (idx + 1) (idx :: brackets)
    | Token.T_RBRACKET =>
      match brackets with
      | [] => none
      | j :: rest => (matchAux ts (idx + 1) rest).map (fun ps => (j, idx) :: ps)

/-- Modelled from the spec: the matched bracket pairs of a token sequence. -/
def matchPairs (toks : List Token) : Option (List (Nat × Nat)) :=
  matchAux toks 0 []

/-- Modelled from the spec: bracket-nesting well-formedness, by bracket depth
counting.  `balancedFrom ts d` holds when, starting from `d` pending open
brackets, no close bracket ever lacks a pending open and the final depth is
zero. -/
def balancedFrom : List Token → Nat → Bool
  | [], d => d == 0
  | Token.T_LBRACKET :: ts, d => balancedFrom ts (d + 1)
  | Token.T_RBRACKET :: ts, d => d != 0 && balancedFrom ts (d - 1)
  | _ :: ts, d => balancedFrom ts d

/-- Modelled from the spec: well-formed bracket nesting of a token sequence. -/
def balanced (toks : List Token) : Bool :=
  balancedFrom toks 0

/-- Modelled from the spec: `goesNeg ts d` holds when some close bracket is
reached with no pending open bracket (depth would go negative). -/
def goesNeg : List Token → Nat → Bool
  | [], _ => false
  | Token.T_LBRACKET :: ts, d => goesNeg ts (d + 1)
  | Token.T_RBRACKET :: ts, d => d == 0 || goesNeg ts (d - 1)
  | _ :: ts, d => goesNeg ts d

example : parse "[++]>".toList =
    [Token.T_LBRACKET, Token.T_PLUS, Token.T_PLUS, Token.T_RBRACKET, Token.T_GT] := by decide

example : compile (parse "[++]>".toList) =
    Except.ok [OpCode.JumpIfZero 4, OpCode.Inc, OpCode.Inc, OpCode.Jump 0, OpCode.Right] := rfl

example : compile [Token.T_LBRACKET] = Except.error "Unmatched left bracket!" := rfl

example : compile [Token.T_RBRACKET] = Except.error "Unmatched right bracket!" := rfl

example : matchPairs (parse "[[]]".toList) = some [(1, 2), (0, 3)] := by decide

/-- The first loop of `condense`: run-length grouping.  The accumulator is the
`grouped` Vec, head-as-top; `count` is a `u8`, so the `count + 1` accumulation
is wrapping `u8` addition, i.e. `(count + 1) % 256`. -/
def groupRuns : List OpCode → List (OpCode × Nat) → List (OpCode × Nat)
  | [], grouped => grouped
  | opcode :: rest, grouped =>
    match grouped with
    | [] => groupRuns rest [(opcode, 1)]
    | (last_code, count) :: tail =>
      if last_code = opcode then
        groupRuns rest ((last_code, (count + 1) % 256) :: tail)
      else
        groupRuns rest ((opcode, 1) :: (last_code, count) :: tail)

/-- One arm of the second loop of `condense`: emit the condensed opcodes for a
group `(code, n)`.  Movement/arithmetic groups become one counted opcode;
`Print`/`Read`/jump groups are re-emitted `n` times (`for _ in 0..n`). -/
def emitGroup : OpCode × Nat → List CondensedOpCode
  | (OpCode.Right, n) => [CondensedOpCode.Right n]
  | (OpCode.Left, n) => [CondensedOpCode.Left n]
  | (OpCode.Inc, n) => [CondensedOpCode.Inc n]
  | (OpCode.Dec, n) => [CondensedOpCode.Dec n]
  | (OpCode.Print, n) => List.replicate n CondensedOpCode.Print
  | (OpCode.Read, n) => List.replicate n CondensedOpCode.Read
  | (OpCode.JumpIfZero j, n) => List.replicate n (CondensedOpCode.JumpIfZero j)
  | (OpCode.Jump j, n) => List.replicate n (CondensedOpCode.Jump j)

/-- `fn condense`.  The `grouped` accumulator is built head-as-top, so it is
reversed before the emission loop. -/
def condense (opcodes : List OpCode) : List CondensedOpCode :=
  ((groupRuns opcodes []).reverse.map emitGroup).flatten

/-- `struct Tape`: `left` and `right` are Vecs of `Wrapping<u8>` cells (natural
index order, push/pop at the end), `curr` the current cell. -/
structure Tape where
  left : List Nat
  curr : Nat
  right : List Nat
deriving DecidableEq

/-- `Tape::new()`: eight zero cells on each side, current cell zero. -/
def Tape.new : Tape :=
  { left := List.replicate 8 0, curr := 0, right := List.replicate 8 0 }

/-- `Tape::move_left`: push `curr` onto `right`, pop `left` into `curr`
(default zero when `left` is empty). -/
def Tape.move_left (t : Tape) : Tape :=
  match t.left.getLast? with
  | some c => { left := t.left.dropLast, curr := c, right := t.right ++ [t.curr] }
  | none => { left := t.left.dropLast, curr := 0, right := t.right ++ [t.curr] }

/-- `Tape::move_right`: push `curr` onto `left`, pop `right` into `curr`
(default zero when `right` is empty). -/
def Tape.move_right (t : Tape) : Tape :=
  match t.right.getLast? with
  | some c => { left := t.left ++ [t.curr], curr := c, right := t.right.dropLast }
  | none => { left := t.left ++ [t.curr], curr := 0, right := t.right.dropLast }

/-- `Tape::move_leftn`: apply `move_left` n times. -/
def Tape.move_leftn (t : Tape) : Nat → Tape
  | 0 => t
  | n + 1 => t.move_left.move_leftn n

/-- `Tape::move_rightn`: apply `move_right` n times. -/
def Tape.move_rightn (t : Tape) : Nat → Tape
  | 0 => t
  | n + 1 => t.move_right.move_rightn n

/-- Wrapping `u8` addition (`Wrapping<u8> +=`). -/
def wadd (a n : Nat) : Nat := (a + n) % 256

/-- Wrapping `u8` subtraction (`Wrapping<u8> -=`). -/
def wsub (a n : Nat) : Nat := (a + (256 - n % 256)) % 256

/-- `fn fill_buffer`: while the buffer is empty, read the next input line,
push its bytes onto the buffer and reverse the buffer.  Returns the resulting
buffer and the remaining input lines, or `none` when the supply of input lines
is exhausted with the buffer still empty (the process would block forever). -/
def fill_buffer : List (List Nat) → List Nat → Option (List Nat × List (List Nat))
  | lines, buffer =>
    if buffer.length = 0 then
      match lines with
      | [] => none
      | l :: rest => fill_buffer rest ((buffer ++ l).reverse)
    else
      some (buffer, lines)

/-- The interpreter state of `fn interpret`: tape, instruction pointer, input
buffer, pending input lines, and the bytes written to standard output so far. -/
structure State where
  tape : Tape
  idx : Nat
  buffer : List Nat
  lines : List (List Nat)
  output : List Nat
deriving DecidableEq

/-- One iteration of the `while idx < bytecode.len()` loop of `interpret`.
Returns `none` only when a `Read` blocks forever (input exhausted) — the
final `match` on `b.getLast?` models the `buffer.pop().unwrap()` after
`fill_buffer` and is proved unreachable. -/
def step (bytecode : List CondensedOpCode) (s : State) : Option State :=
  match bytecode[s.idx]? with
  | none => some s
  | some op =>
    match op with
    | CondensedOpCode.Right n => some { s with tape := s.tape.move_rightn n, idx := s.idx + 1 }
    | CondensedOpCode.Left n => some { s with tape := s.tape.move_leftn n, idx := s.idx + 1 }
    | CondensedOpCode.Inc n =>
      some { s with tape := { s.tape with curr := wadd s.tape.curr n }, idx := s.idx + 1 }
    | CondensedOpCode.Dec n =>
      some { s with tape := { s.tape with curr := wsub s.tape.curr n }, idx := s.idx + 1 }
    | CondensedOpCode.Print =>
      some { s with output := s.output ++ [s.tape.curr], idx := s.idx + 1 }
    | CondensedOpCode.Read =>
      match s.buffer.getLast? with
      | some c =>
        some { s with tape := { s.tape with curr := c },
                      buffer := s.buffer.dropLast, idx := s.idx + 1 }
      | none =>
        match fill_buffer s.lines s.buffer with
        | none => none
        | some (b, ls) =>
          match b.getLast? with
          | some c =>
            some { s with tape := { s.tape with curr := c },
                          buffer := b.dropLast, lines := ls, idx := s.idx + 1 }
          | none => none
    | CondensedOpCode.JumpIfZero j =>
      if s.tape.curr = 0 then some { s with idx := j } else some { s with idx := s.idx + 1 }
    | CondensedOpCode.Jump j => some { s with idx := j }

/-- Fuel-bounded iteration of the interpreter loop: stops once
`idx ≥ bytecode.length` (the loop's terminal state) or the fuel runs out. -/
def run (bytecode : List CondensedOpCode) : Nat → State → Option State
  | 0, s => some s
  | fuel + 1, s =>
    if s.idx < bytecode.length then
      match step bytecode s with
      | none => none
      | some s' => run bytecode fuel s'
    else
      some s

/-- The interpreter's initial state (`interpret`: fresh tape, `idx = 0`, empty
buffer), with a given supply of input lines. -/
def initState (lines : List (List Nat)) : State :=
  { tape := Tape.new, idx := 0, buffer := [], lines := lines, output := [] }

/-- Modelled from the spec: executing the original uncondensed instruction
sequence means executing each instruction as a single-step (count 1)
instruction. -/
def singleStep : OpCode → CondensedOpCode
  | OpCode.Right => CondensedOpCode.Right 1
  | OpCode.Left => CondensedOpCode.Left 1
  | OpCode.Inc => CondensedOpCode.Inc 1
  | OpCode.Dec => CondensedOpCode.Dec 1
  | OpCode.Print => CondensedOpCode.Print
  | OpCode.Read => CondensedOpCode.Read
  | OpCode.JumpIfZero j => CondensedOpCode.JumpIfZero j
  | OpCode.Jump j => CondensedOpCode.Jump j

/-- The outcome of `fn main` after a source file has been read. -/
inductive MainResult
  | ran : Option State → MainResult
  | compileError : String → MainResult

/-- The pipeline of `fn main` after loading the source: parse, compile,
condense and interpret on success; print the error message and do not
execute on a compile error. -/
def mainModel (src : List Char) (lines : List (List Nat)) (fuel : Nat) : MainResult :=
  match compile (parse src) with
  | Except.ok bytecode => MainResult.ran (run (condense bytecode) fuel (initState lines))
  | Except.error e => MainResult.compileError e

example : condense [OpCode.Inc, OpCode.Inc, OpCode.Print, OpCode.Print, OpCode.Right] =
    [CondensedOpCode.Inc 2, CondensedOpCode.Print, CondensedOpCode.Print,
      CondensedOpCode.Right 1] := by decide

example : condense [OpCode.JumpIfZero 4, OpCode.Inc, OpCode.Inc, OpCode.Jump 0, OpCode.Right] =
    [CondensedOpCode.JumpIfZero 4, CondensedOpCode.Inc 2, CondensedOpCode.Jump 0,
      CondensedOpCode.Right 1] := by decide

/-- The condensed instruction sequence of the program `+[]`: a loop whose body
never drives the tested cell to zero. -/
def plusLoop : List CondensedOpCode :=
  [CondensedOpCode.Inc 1, CondensedOpCode.JumpIfZero 3, CondensedOpCode.Jump 1]

/-- The states the interpreter can reach while executing `plusLoop`. -/
def plusLoopInv (s : State) : Prop :=
  (s.idx = 0 ∧ s.tape.curr = 0) ∨ ((s.idx = 1 ∨ s.idx = 2) ∧ s.tape.curr = 1)

/-! ## Helper lemmas -/

/-- `parse` distributes over append (the tokenizer is a character-wise pass). -/
theorem parse_append (l1 l2 : List Char) : parse (l1 ++ l2) = parse l1 ++ parse l2 := by
  induction l1 with
  | nil => simp [parse]
  | cons c cs ih => cases h : charToken c <;> simp [parse, h, ih]

/-- `fill_buffer` never returns an empty buffer. -/
theorem fill_buffer_ne_nil :
    ∀ (lines : List (List Nat)) (buffer b : List Nat) (ls : List (List Nat)),
      fill_buffer lines buffer = some (b, ls) → b ≠ [] := by
  intro lines
  induction lines with
  | nil =>
    intro buffer b ls h
    unfold fill_buffer at h
    by_cases hb : buffer.length = 0
    · simp [hb] at h
    · simp [hb] at h
      rcases h with ⟨hb', _⟩
      intro hnil
      exact hb (by simp [hb'.trans hnil])
  | cons l rest ih =>
    intro buffer b ls h
    unfold fill_buffer at h
    by_cases hb : buffer.length = 0
    · simp only [hb, if_pos rfl] at h
      exact ih _ b ls h
    · simp [hb] at h
      rcases h with ⟨hb', _⟩
      intro hnil
      exact hb (by simp [hb'.trans hnil])

/-- Run-length grouping of a uniform run on top of a matching group: the count
accumulates with wrapping `u8` addition. -/
theorem groupRuns_replicate (op : OpCode) :
    ∀ (n k : Nat) (tail : List (OpCode × Nat)), k < 256 →
      groupRuns (List.replicate n op) ((op, k) :: tail) = (op, (k + n) % 256) :: tail := by
  intro n
  induction n with
  | zero =>
    intro k tail hk
    simp [groupRuns, Nat.mod_eq_of_lt hk]
  | succ m ih =>
    intro k tail hk
    rw [List.replicate_succ]
    rw [show groupRuns (op :: List.replicate m op) ((op, k) :: tail) =
        groupRuns (List.replicate m op) ((op, (k + 1) % 256) :: tail) from by simp [groupRuns]]
    rw [ih ((k + 1) % 256) tail (Nat.mod_lt _ (by omega))]
    have : ((k + 1) % 256 + m) % 256 = (k + (m + 1)) % 256 := by
      rw [Nat.mod_add_mod]
      have : k + 1 + m = k + (m + 1) := by omega
      rw [this]
    rw [this]

/-- The interpreter never leaves the invariant states of `plusLoop`, and never
gets stuck on it. -/
theorem plusLoop_inv_run :
    ∀ (k : Nat) (s : State), plusLoopInv s →
      ∃ s', run plusLoop k s = some s' ∧ plusLoopInv s' := by
  intro k
  induction k with
  | zero => intro s h; exact ⟨s, rfl, h⟩
  | succ m ih =>
    intro s h
    rcases h with ⟨h0, hc⟩ | ⟨h12, hc⟩
    · have hstep : step plusLoop s =
          some { s with tape := { s.tape with curr := 1 }, idx := 1 } := by
        simp [step, plusLoop, h0, hc, wadd]
      have hrun : run plusLoop (m + 1) s =
          run plusLoop m { s with tape := { s.tape with curr := 1 }, idx := 1 } := by
        have hlen : plusLoop.length = 3 := rfl
        simp [run, h0, hlen, hstep]
      rw [hrun]
      exact ih _ (Or.inr ⟨Or.inl rfl, rfl⟩)
    · rcases h12 with h1 | h2
      · have hstep : step plusLoop s = some { s with idx := 2 } := by
          simp [step, plusLoop, h1, hc]
        have hrun : run plusLoop (m + 1) s = run plusLoop m { s with idx := 2 } := by
          have hlen : plusLoop.length = 3 := rfl
          simp [run, h1, hlen, hstep]
        rw [hrun]
        exact ih _ (Or.inr ⟨Or.inr rfl, hc⟩)
      · have hstep : step plusLoop s = some { s with idx := 1 } := by
          simp [step, plusLoop, h2, hc]
        have hrun : run plusLoop (m + 1) s = run plusLoop m { s with idx := 1 } := by
          have hlen : plusLoop.length = 3 := rfl
          simp [run, h2, hlen, hstep]
        rw [hrun]
        exact ih _ (Or.inr ⟨Or.inl rfl, hc⟩)

/-- Positions already written to `bytecode` and not on the `brackets` stack are
never modified by the rest of compilation. -/
theorem compileAux_stable :
    ∀ (ts : List Token) (idx : Nat) (brackets : List Nat) (bytecode code : List OpCode),
      compileAux ts idx brackets bytecode = Except.ok code →
      idx = bytecode.length →
      (∀ j ∈ brackets, j < bytecode.length) →
      ∀ p, p < bytecode.length → p ∉ brackets → code[p]? = bytecode[p]? := by
  intro ts
  induction ts with
  | nil =>
    intro idx brackets bytecode code h hidx hmem p hp hni
    unfold compileAux at h
    by_cases hb : brackets = []
    · rw [if_pos hb] at h
      obtain rfl : bytecode = code := Except.ok.inj h
      rfl
    · rw [if_neg hb] at h
      exact Except.noConfusion h
  | cons t ts ih =>
    intro idx brackets bytecode code h hidx hmem p hp hni
    cases t
    case T_LBRACKET =>
      simp only [compileAux] at h
      have hni' : p ∉ idx :: brackets := by
        intro hm
        rcases List.mem_cons.mp hm with rfl | hm
        · omega
        · exact hni hm
      have hrec := ih (idx + 1) (idx :: brackets) (bytecode ++ [OpCode.JumpIfZero 0]) code h
        (by simp [hidx])
        (by intro x hx
            rcases List.mem_cons.mp hx with rfl | hx
            · simp [hidx]
            · have := hmem x hx
              simp
              omega)
        p (by simp; omega) hni'
      rw [hrec, List.getElem?_append_left hp]
    case T_RBRACKET =>
      simp only [compileAux] at h
      cases brackets with
      | nil => exact Except.noConfusion h
      | cons j rest =>
        have hjlt : j < bytecode.length := hmem j (List.mem_cons_self j rest)
        have hpj : p ≠ j := fun e => hni (e ▸ List.mem_cons_self j rest)
        have hni' : p ∉ rest := fun hm => hni (List.mem_cons_of_mem j hm)
        have hrec := ih (idx + 1) rest
          ((bytecode ++ [OpCode.Jump j]).set j (OpCode.JumpIfZero (idx + 1))) code h
          (by simp [hidx])
          (by intro x hx
              have := hmem x (List.mem_cons_of_mem j hx)
              simp
              omega)
          p (by simp; omega) hni'
        rw [hrec, List.getElem?_set_ne (Ne.symm hpj), List.getElem?_append_left hp]
    all_goals
      simp only [compileAux] at h
      rw [ih (idx + 1) brackets _ code h (by simp [hidx])
        (by intro x hx
            have := hmem x hx
            simp
            omega)
        p (by simp; omega) hni]
      exact List.getElem?_append_left hp

/-- Every matched bracket pair is compiled to a correctly-resolved jump pair:
the open bracket at `pr.1` becomes `JumpIfZero (pr.2 + 1)` (one past its
close's jump) and the close bracket at `pr.2` becomes `Jump pr.1`. -/
theorem compileAux_pairs :
    ∀ (ts : List Token) (idx : Nat) (brackets : List Nat) (bytecode code : List OpCode)
      (pairs : List (Nat × Nat)),
      compileAux ts idx brackets bytecode = Except.ok code →
      matchAux ts idx brackets = some pairs →
      idx = bytecode.length →
      (∀ j ∈ brackets, j < bytecode.length) →
      List.Pairwise (fun a b => b < a) brackets →
      ∀ pr ∈ pairs, code[pr.1]? = some (OpCode.JumpIfZero (pr.2 + 1)) ∧
        code[pr.2]? = some (OpCode.Jump pr.1) := by
  intro ts
  induction ts with
  | nil =>
    intro idx brackets bytecode code pairs h hm hidx hmem hpw
    unfold matchAux at hm
    by_cases hb : brackets = []
    · rw [if_pos hb] at hm
      obtain rfl : ([] : List (Nat × Nat)) = pairs := Option.some.inj hm
      intro pr hpr
      simp at hpr
    · rw [if_neg hb] at hm
      exact Option.noConfusion hm
  | cons t ts ih =>
    intro idx brackets bytecode code pairs h hm hidx hmem hpw
    cases t
    case T_LBRACKET =>
      simp only [compileAux] at h
      simp only [matchAux] at hm
      exact ih (idx + 1) (idx :: brackets) (bytecode ++ [OpCode.JumpIfZero 0]) code pairs h hm
        (by simp [hidx])
        (by intro x hx
            rcases List.mem_cons.mp hx with rfl | hx
            · simp [hidx]
            · have := hmem x hx
              simp
              omega)
        (List.pairwise_cons.mpr
          ⟨by intro b hb
              have := hmem b hb
              omega,
            hpw⟩)
    case T_RBRACKET =>
      simp only [compileAux] at h
      simp only [matchAux] at hm
      cases brackets with
      | nil => exact Option.noConfusion hm
      | cons j rest =>
        obtain ⟨ps, hps, hpairs⟩ := Option.map_eq_some'.mp hm
        obtain ⟨hjr, hpwr⟩ := List.pairwise_cons.mp hpw
        have hjlt : j < bytecode.length := hmem j (List.mem_cons_self j rest)
        have hmem' : ∀ x ∈ rest,
            x < ((bytecode ++ [OpCode.Jump j]).set j (OpCode.JumpIfZero (idx + 1))).length := by
          intro x hx
          have := hmem x (List.mem_cons_of_mem j hx)
          simp
          omega
        have hstable := compileAux_stable ts (idx + 1) rest
          ((bytecode ++ [OpCode.Jump j]).set j (OpCode.JumpIfZero (idx + 1))) code h
          (by simp [hidx]) hmem'
        intro pr hpr
        rw [← hpairs] at hpr
        rcases List.mem_cons.mp hpr with rfl | hpr
        · have hjn : j ∉ rest := fun hm' => lt_irrefl j (hjr j hm')
          have hin : idx ∉ rest := by
            intro hm'
            have := hmem idx (List.mem_cons_of_mem j hm')
            omega
          constructor
          · rw [hstable j (by simp; omega) hjn,
              List.getElem?_set_eq_of_lt _ (by simp; omega)]
          · rw [hstable idx (by simp; omega) hin,
              List.getElem?_set_ne (by omega : j ≠ idx)]
            have : idx = (bytecode ++ [OpCode.Jump j]).length - 1 := by simp [hidx]
            rw [hidx, List.getElem?_concat_length]
        · exact ih (idx + 1) rest _ code ps h hps (by simp [hidx]) hmem' hpwr pr hpr
    all_goals
      simp only [compileAux] at h
      simp only [matchAux] at hm
      exact ih (idx + 1) brackets _ code pairs h hm (by simp [hidx])
        (by intro x hx
            have := hmem x hx
            simp
            omega)
        hpw

/-- The matched pairs cover every pending open bracket and every bracket token
of the sequence. -/
theorem matchAux_covers :
    ∀ (ts : List Token) (idx : Nat) (brackets : List Nat) (pairs : List (Nat × Nat)),
      matchAux ts idx brackets = some pairs →
      (∀ b ∈ brackets, ∃ i, (b, i) ∈ pairs) ∧
      (∀ k, ts[k]? = some Token.T_LBRACKET → ∃ i, (idx + k, i) ∈ pairs) ∧
      (∀ k, ts[k]? = some Token.T_RBRACKET → ∃ j, (j, idx + k) ∈ pairs) := by
  intro ts
  induction ts with
  | nil =>
    intro idx brackets pairs hm
    unfold matchAux at hm
    by_cases hb : brackets = []
    · rw [if_pos hb] at hm
      obtain rfl : ([] : List (Nat × Nat)) = pairs := Option.some.inj hm
      subst hb
      refine ⟨by simp, ?_, ?_⟩ <;> intro k hk <;> simp at hk
    · rw [if_neg hb] at hm
      exact Option.noConfusion hm
  | cons t ts ih =>
    intro idx brackets pairs hm
    cases t
    case T_LBRACKET =>
      simp only [matchAux] at hm
      obtain ⟨hstack, hopen, hclose⟩ := ih (idx + 1) (idx :: brackets) pairs hm
      refine ⟨fun b hb => hstack b (List.mem_cons_of_mem idx hb), ?_, ?_⟩
      · intro k hk
        cases k with
        | zero =>
          simpa using hstack idx (List.mem_cons_self idx brackets)
        | succ k' =>
          simp only [List.getElem?_cons_succ] at hk
          have harith : idx + (k' + 1) = idx + 1 + k' := by omega
          rw [harith]
          exact hopen k' hk
      · intro k hk
        cases k with
        | zero => simp at hk
        | succ k' =>
          simp only [List.getElem?_cons_succ] at hk
          have harith : idx + (k' + 1) = idx + 1 + k' := by omega
          rw [harith]
          exact hclose k' hk
    case T_RBRACKET =>
      simp only [matchAux] at hm
      cases brackets with
      | nil => exact Option.noConfusion hm
      | cons j rest =>
        obtain ⟨ps, hps, hpairs⟩ := Option.map_eq_some'.mp hm
        obtain ⟨hstack, hopen, hclose⟩ := ih (idx + 1) rest ps hps
        subst hpairs
        refine ⟨?_, ?_, ?_⟩
        · intro b hb
          rcases List.mem_cons.mp hb with rfl | hb
          · exact ⟨idx, List.mem_cons_self _ _⟩
          · obtain ⟨i, hi⟩ := hstack b hb
            exact ⟨i, List.mem_cons_of_mem _ hi⟩
        · intro k hk
          cases k with
          | zero => simp at hk
          | succ k' =>
            simp only [List.getElem?_cons_succ] at hk
            have harith : idx + (k' + 1) = idx + 1 + k' := by omega
            rw [harith]
            obtain ⟨i, hi⟩ := hopen k' hk
            exact ⟨i, List.mem_cons_of_mem (j, idx) hi⟩
        · intro k hk
          cases k with
          | zero => exact ⟨j, by simp⟩
          | succ k' =>
            simp only [List.getElem?_cons_succ] at hk
            have harith : idx + (k' + 1) = idx + 1 + k' := by omega
            rw [harith]
            obtain ⟨j', hj'⟩ := hclose k' hk
            exact ⟨j', List.mem_cons_of_mem (j, idx) hj'⟩
    all_goals
      simp only [matchAux] at hm
      obtain ⟨hstack, hopen, hclose⟩ := ih (idx + 1) brackets pairs hm
      refine ⟨hstack, ?_, ?_⟩ <;> intro k hk <;>
        cases k with
        | zero => simp at hk
        | succ k' =>
          simp only [List.getElem?_cons_succ] at hk
          have harith : idx + (k' + 1) = idx + 1 + k' := by omega
          rw [harith]
          first
          | exact hopen k' hk
          | exact hclose k' hk

/-- On well-formed nesting the stack matcher succeeds. -/
theorem matchAux_some_of_balanced :
    ∀ (ts : List Token) (idx : Nat) (brackets : List Nat),
      balancedFrom ts brackets.length = true →
      ∃ ps, matchAux ts idx brackets = some ps := by
  intro ts
  induction ts with
  | nil =>
    intro idx brackets hb
    simp only [balancedFrom] at hb
    have : brackets = [] := List.length_eq_zero.mp (by simpa using hb)
    exact ⟨[], by simp [matchAux, this]⟩
  | cons t ts ih =>
    intro idx brackets hb
    cases t
    case T_LBRACKET =>
      simp only [balancedFrom] at hb
      obtain ⟨ps, hps⟩ := ih (idx + 1) (idx :: brackets) (by simpa using hb)
      exact ⟨ps, by simpa [matchAux] using hps⟩
    case T_RBRACKET =>
      simp only [balancedFrom, Bool.and_eq_true] at hb
      obtain ⟨hne, hb⟩ := hb
      cases brackets with
      | nil => simp at hne
      | cons j rest =>
        obtain ⟨ps, hps⟩ := ih (idx + 1) rest (by simpa using hb)
        exact ⟨(j, idx) :: ps, by simp [matchAux, hps]⟩
    all_goals
      simp only [balancedFrom] at hb
      obtain ⟨ps, hps⟩ := ih (idx + 1) brackets hb
      exact ⟨ps, by simpa [matchAux] using hps⟩

/-- Classification of `compileAux`'s result by the bracket-depth profile of
the remaining tokens: success on balance, "Unmatched right bracket!" when the
depth would go negative, "Unmatched left bracket!" otherwise. -/
theorem compileAux_classify :
    ∀ (ts : List Token) (idx : Nat) (brackets : List Nat) (bytecode : List OpCode),
      (balancedFrom ts brackets.length = true →
        ∃ code, compileAux ts idx brackets bytecode = Except.ok code) ∧
      (goesNeg ts brackets.length = true →
        compileAux ts idx brackets bytecode = Except.error "Unmatched right bracket!") ∧
      (goesNeg ts brackets.length = false → balancedFrom ts brackets.length = false →
        compileAux ts idx brackets bytecode = Except.error "Unmatched left bracket!") := by
  intro ts
  induction ts with
  | nil =>
    intro idx brackets bytecode
    refine ⟨?_, ?_, ?_⟩
    · intro hb
      simp only [balancedFrom] at hb
      have : brackets = [] := List.length_eq_zero.mp (by simpa using hb)
      exact ⟨bytecode, by simp [compileAux, this]⟩
    · intro hg
      simp [goesNeg] at hg
    · intro _ hb
      simp only [balancedFrom] at hb
      have : brackets ≠ [] := by
        intro e
        rw [e] at hb
        simp at hb
      simp [compileAux, this]
  | cons t ts ih =>
    intro idx brackets bytecode
    cases t
    case T_LBRACKET =>
      have h3 := ih (idx + 1) (idx :: brackets) (bytecode ++ [OpCode.JumpIfZero 0])
      refine ⟨?_, ?_, ?_⟩
      · intro hb
        simp only [balancedFrom] at hb
        obtain ⟨code, hcode⟩ := h3.1 (by simpa using hb)
        exact ⟨code, by simpa [compileAux] using hcode⟩
      · intro hg
        simp only [goesNeg] at hg
        have := h3.2.1 (by simpa using hg)
        simpa [compileAux] using this
      · intro hg hb
        simp only [goesNeg] at hg
        simp only [balancedFrom] at hb
        have := h3.2.2 (by simpa using hg) (by simpa using hb)
        simpa [compileAux] using this
    case T_RBRACKET =>
      refine ⟨?_, ?_, ?_⟩
      · intro hb
        simp only [balancedFrom, Bool.and_eq_true] at hb
        obtain ⟨hne, hb⟩ := hb
        cases brackets with
        | nil => simp at hne
        | cons j rest =>
          have h3 := ih (idx + 1) rest
            ((bytecode ++ [OpCode.Jump j]).set j (OpCode.JumpIfZero (idx + 1)))
          obtain ⟨code, hcode⟩ := h3.1 (by simpa using hb)
          exact ⟨code, by simpa [compileAux] using hcode⟩
      · intro hg
        simp only [goesNeg, Bool.or_eq_true] at hg
        cases brackets with
        | nil => simp [compileAux]
        | cons j rest =>
          rcases hg with hg | hg
          · simp at hg
          · have h3 := ih (idx + 1) rest
              ((bytecode ++ [OpCode.Jump j]).set j (OpCode.JumpIfZero (idx + 1)))
            have := h3.2.1 (by simpa using hg)
            simpa [compileAux] using this
      · intro hg hb
        cases brackets with
        | nil => simp [goesNeg] at hg
        | cons j rest =>
          simp only [goesNeg, List.length_cons, Nat.add_sub_cancel] at hg
          simp only [balancedFrom, List.length_cons, Nat.add_sub_cancel] at hb
          have hg' : goesNeg ts rest.length = false := by
            cases hgi : goesNeg ts rest.length
            · rfl
            · rw [hgi] at hg
              simp at hg
          have hb' : balancedFrom ts rest.length = false := by
            cases hbi : balancedFrom ts rest.length
            · rfl
            · rw [hbi] at hb
              simp at hb
          have h3 := ih (idx + 1) rest
            ((bytecode ++ [OpCode.Jump j]).set j (OpCode.JumpIfZero (idx + 1)))
          have := h3.2.2 hg' hb'
          simpa [compileAux] using this
    all_goals exact
      ⟨fun hb => by
          simp only [balancedFrom] at hb
          simp only [compileAux]
          exact (ih (idx + 1) brackets _).1 hb,
        fun hg => by
          simp only [goesNeg] at hg
          simp only [compileAux]
          exact (ih (idx + 1) brackets _).2.1 hg,
        fun hg hb => by
          simp only [goesNeg] at hg
          simp only [balancedFrom] at hb
          simp only [compileAux]
          exact (ih (idx + 1) brackets _).2.2 hg hb⟩

/-! ## Claim theorems -/

/-- Claim C6: for every tape, moving left then immediately right (or right then
left) with no intervening write restores the current cell's exact value,
including when the popped history is empty and a default zero cell is
materialized. -/
theorem tape_move_round_trip (t : Tape) :
    t.move_left.move_right.curr = t.curr ∧ t.move_right.move_left.curr = t.curr := by
  constructor
  · cases h : t.left.getLast? <;>
      simp [Tape.move_left, Tape.move_right, h, List.getLast?_concat]
  · cases h : t.right.getLast? <;>
      simp [Tape.move_left, Tape.move_right, h, List.getLast?_concat]

/-- Claim C8: the tokenizer is total and order-preserving, every character
outside the eight-symbol alphabet is silently dropped (absent from the
output), and each of the eight alphabet characters maps to exactly one
corresponding token. -/
theorem tokenizer_drops_comments :
    (∀ (l1 l2 : List Char) (c : Char), charToken c = none →
      parse (l1 ++ c :: l2) = parse (l1 ++ l2)) ∧
    (∀ l1 l2 : List Char, parse (l1 ++ l2) = parse l1 ++ parse l2) ∧
    parse ['>'] = [Token.T_GT] ∧ parse ['<'] = [Token.T_LT] ∧
    parse ['+'] = [Token.T_PLUS] ∧ parse ['-'] = [Token.T_MINUS] ∧
    parse ['.'] = [Token.T_DOT] ∧ parse [','] = [Token.T_COMMA] ∧
    parse ['['] = [Token.T_LBRACKET] ∧ parse [']'] = [Token.T_RBRACKET] := by
  refine ⟨?_, parse_append, rfl, rfl, rfl, rfl, rfl, rfl, rfl, rfl⟩
  intro l1 l2 c hc
  rw [parse_append, parse_append]
  have : parse (c :: l2) = parse l2 := by simp [parse, hc]
  rw [this]

/-- Witness for C8: the non-command character 'a' is dropped. -/
theorem tokenizer_drops_comments_witness :
    parse (['+'] ++ 'a' :: ['>']) = parse (['+'] ++ ['>']) :=
  tokenizer_drops_comments.1 ['+'] ['>'] 'a' rfl

/-- Claim C5: cell arithmetic wraps modulo 256: incrementing 255 yields 0,
decrementing 0 yields 255, and in general an `Inc n` / `Dec n` instruction
adds / subtracts `n` modulo 256 to the current cell. -/
theorem cell_arithmetic_wraps :
    wadd 255 1 = 0 ∧ wsub 0 1 = 255 ∧
    (∀ c n : Nat, wadd c n = (c + n) % 256) ∧
    (∀ c n : Nat, n < 256 → wsub c n = (c + (256 - n)) % 256) ∧
    (∀ (code : List CondensedOpCode) (s : State) (n : Nat),
      code[s.idx]? = some (CondensedOpCode.Inc n) →
      step code s = some { s with tape := { s.tape with curr := (s.tape.curr + n) % 256 },
                                  idx := s.idx + 1 }) ∧
    (∀ (code : List CondensedOpCode) (s : State) (n : Nat), n < 256 →
      code[s.idx]? = some (CondensedOpCode.Dec n) →
      step code s = some { s with tape := { s.tape with curr := (s.tape.curr + (256 - n)) % 256 },
                                  idx := s.idx + 1 }) := by
  refine ⟨rfl, rfl, fun c n => rfl, ?_, ?_, ?_⟩
  · intro c n hn
    simp [wsub, Nat.mod_eq_of_lt hn]
  · intro code s n h
    simp [step, h, wadd]
  · intro code s n hn h
    simp [step, h, wsub, Nat.mod_eq_of_lt hn]

/-- Witness for C5: a `Dec 1` instruction at a current cell of 0 wraps to 255. -/
theorem cell_arithmetic_wraps_witness :
    step [CondensedOpCode.Dec 1] (initState []) =
      some { initState [] with tape := { (initState []).tape with curr := (0 + (256 - 1)) % 256 },
                               idx := 0 + 1 } :=
  cell_arithmetic_wraps.2.2.2.2.2 [CondensedOpCode.Dec 1] (initState []) 1 (by decide) rfl

/-- Claim C7: a `Read` with an empty buffer refills it from the next input
line: the whole line (terminator byte included, nothing stripped) is reversed
into the buffer, the first byte of the line is popped into the current cell,
and a `Read` with a non-empty buffer pops exactly its last byte. -/
theorem read_refills_line_reversed :
    (∀ (c : Nat) (l : List Nat) (ls : List (List Nat)),
      fill_buffer ((c :: l) :: ls) [] = some ((c :: l).reverse, ls)) ∧
    (∀ (code : List CondensedOpCode) (s : State) (c : Nat) (l : List Nat) (ls : List (List Nat)),
      s.buffer = [] → s.lines = (c :: l) :: ls → code[s.idx]? = some CondensedOpCode.Read →
      step code s = some { s with tape := { s.tape with curr := c },
                                  buffer := l.reverse, lines := ls, idx := s.idx + 1 }) ∧
    (∀ (code : List CondensedOpCode) (s : State) (b : List Nat) (c : Nat),
      s.buffer = b ++ [c] → code[s.idx]? = some CondensedOpCode.Read →
      step code s = some { s with tape := { s.tape with curr := c },
                                  buffer := b, idx := s.idx + 1 }) := by
  have hfill : ∀ (c : Nat) (l : List Nat) (ls : List (List Nat)),
      fill_buffer ((c :: l) :: ls) [] = some ((c :: l).reverse, ls) := by
    intro c l ls
    unfold fill_buffer
    simp only [List.length_nil, if_pos rfl, List.nil_append]
    unfold fill_buffer
    simp
  refine ⟨hfill, ?_, ?_⟩
  · intro code s c l ls hbuf hlines hcode
    have hrev : (c :: l).reverse = l.reverse ++ [c] := by simp
    simp only [step, hcode, hbuf, hlines, List.getLast?_eq_none_iff.mpr rfl, hfill, hrev,
      List.getLast?_concat, List.dropLast_concat]
  · intro code s b c hbuf hcode
    simp only [step, hcode, hbuf, List.getLast?_concat, List.dropLast_concat]

/-- Witness for C7: reading with empty buffer from the pending line "hi\n"
(bytes 104, 105, 10) stores 104 and leaves [10, 105] (head-to-tail reversed)
in the buffer. -/
theorem read_refills_line_reversed_witness :
    step [CondensedOpCode.Read] (initState [[104, 105, 10]]) =
      some { initState [[104, 105, 10]] with
               tape := { (initState [[104, 105, 10]]).tape with curr := 104 },
               buffer := ([105, 10] : List Nat).reverse, lines := [], idx := 0 + 1 } :=
  read_refills_line_reversed.2.1 [CondensedOpCode.Read] (initState [[104, 105, 10]])
    104 [105, 10] [] rfl rfl rfl

/-- Claim C4: no instruction fails at runtime: a successful `fill_buffer`
always yields a non-empty buffer (so the pop after a refill succeeds), the
only way a step can fail to produce a successor state is a `Read` blocking
forever on exhausted input, and any step whose instruction is not a blocked
`Read` produces a successor state. -/
theorem interpreter_step_total :
    (∀ (lines : List (List Nat)) (buffer b : List Nat) (ls : List (List Nat)),
      fill_buffer lines buffer = some (b, ls) → ∃ c, b.getLast? = some c) ∧
    (∀ (code : List CondensedOpCode) (s : State), s.idx < code.length →
      step code s = none →
      code[s.idx]? = some CondensedOpCode.Read ∧ s.buffer = [] ∧
        fill_buffer s.lines s.buffer = none) ∧
    (∀ (code : List CondensedOpCode) (s : State), s.idx < code.length →
      (code[s.idx]? ≠ some CondensedOpCode.Read ∨ s.buffer ≠ [] ∨
        fill_buffer s.lines s.buffer ≠ none) →
      ∃ s', step code s = some s') := by
  have hfill : ∀ (lines : List (List Nat)) (buffer b : List Nat) (ls : List (List Nat)),
      fill_buffer lines buffer = some (b, ls) → ∃ c, b.getLast? = some c := by
    intro lines buffer b ls h
    have hb := fill_buffer_ne_nil lines buffer b ls h
    cases hc : b.getLast? with
    | some c => exact ⟨c, rfl⟩
    | none => exact absurd (List.getLast?_eq_none_iff.mp hc) hb
  have hnone : ∀ (code : List CondensedOpCode) (s : State), s.idx < code.length →
      step code s = none →
      code[s.idx]? = some CondensedOpCode.Read ∧ s.buffer = [] ∧
        fill_buffer s.lines s.buffer = none := by
    intro code s hlt h
    cases hget : code[s.idx]? with
    | none =>
      exact absurd hget (by simp [List.getElem?_eq_none_iff]; omega)
    | some op =>
      cases op <;> simp [step, hget] at h
      case Read =>
        cases hlast : s.buffer.getLast? with
        | some c => simp [step, hget, hlast] at h
        | none =>
          have hbuf : s.buffer = [] := List.getLast?_eq_none_iff.mp hlast
          cases hf : fill_buffer s.lines s.buffer with
          | none => exact ⟨rfl, hbuf, rfl⟩
          | some p =>
            obtain ⟨c, hc⟩ := hfill s.lines s.buffer p.1 p.2 (by rw [hf])
            simp [step, hget, hlast, hf, hc] at h
      case JumpIfZero j => by_cases hz : s.tape.curr = 0 <;> simp [hz] at h
  refine ⟨hfill, hnone, ?_⟩
  intro code s hlt hcond
  cases hs : step code s with
  | some s' => exact ⟨s', rfl⟩
  | none =>
    obtain ⟨h1, h2, h3⟩ := hnone code s hlt hs
    rcases hcond with hc | hc | hc
    · exact absurd h1 hc
    · exact absurd h2 hc
    · exact absurd h3 hc

/-- Witness for C4: with a pending input line, a `Read` step succeeds. -/
theorem interpreter_step_total_witness :
    ∃ s', step [CondensedOpCode.Read] (initState [[104]]) = some s' :=
  interpreter_step_total.2.2 [CondensedOpCode.Read] (initState [[104]]) (by decide)
    (Or.inr (Or.inr (by decide)))

/-- Claim C2: for every token sequence with well-formed bracket nesting,
`compile` succeeds, the stack matcher produces the matched bracket pairs
covering every bracket token, and in the resulting instruction sequence every
loop-open becomes `JumpIfZero` targeting the index immediately after its
matching loop-close's `Jump`, and every loop-close becomes `Jump` targeting
its matching loop-open's index. -/
theorem compile_resolves_matching_brackets (toks : List Token) (h : balanced toks = true) :
    ∃ (code : List OpCode) (pairs : List (Nat × Nat)),
      compile toks = Except.ok code ∧ matchPairs toks = some pairs ∧
      (∀ pr ∈ pairs, code[pr.1]? = some (OpCode.JumpIfZero (pr.2 + 1)) ∧
        code[pr.2]? = some (OpCode.Jump pr.1)) ∧
      (∀ k, toks[k]? = some Token.T_LBRACKET → ∃ i, (k, i) ∈ pairs) ∧
      (∀ k, toks[k]? = some Token.T_RBRACKET → ∃ j, (j, k) ∈ pairs) := by
  obtain ⟨code, hcode⟩ := (compileAux_classify toks 0 [] []).1 (by simpa [balanced] using h)
  obtain ⟨pairs, hpairs⟩ := matchAux_some_of_balanced toks 0 [] (by simpa [balanced] using h)
  obtain ⟨hstack, hopen, hclose⟩ := matchAux_covers toks 0 [] pairs hpairs
  refine ⟨code, pairs, hcode, hpairs, ?_, ?_, ?_⟩
  · exact compileAux_pairs toks 0 [] [] code pairs hcode hpairs rfl (by simp) (by simp)
  · intro k hk
    simpa using hopen k hk
  · intro k hk
    simpa using hclose k hk

/-- Witness for C2 at the program `[]`. -/
theorem compile_resolves_matching_brackets_witness :
    ∃ (code : List OpCode) (pairs : List (Nat × Nat)),
      compile [Token.T_LBRACKET, Token.T_RBRACKET] = Except.ok code ∧
      matchPairs [Token.T_LBRACKET, Token.T_RBRACKET] = some pairs ∧
      (∀ pr ∈ pairs, code[pr.1]? = some (OpCode.JumpIfZero (pr.2 + 1)) ∧
        code[pr.2]? = some (OpCode.Jump pr.1)) ∧
      (∀ k, ([Token.T_LBRACKET, Token.T_RBRACKET])[k]? = some Token.T_LBRACKET →
        ∃ i, (k, i) ∈ pairs) ∧
      (∀ k, ([Token.T_LBRACKET, Token.T_RBRACKET])[k]? = some Token.T_RBRACKET →
        ∃ j, (j, k) ∈ pairs) :=
  compile_resolves_matching_brackets [Token.T_LBRACKET, Token.T_RBRACKET] (by decide)

/-- Claim C3: `compile` errs exactly on ill-formed nesting: it succeeds iff the
tokens are balanced, returns "Unmatched right bracket!" iff some close bracket
has no pending open (checked first, aborting immediately), returns "Unmatched
left bracket!" iff the depth never goes negative but open brackets remain; the
single tokens `[` / `]` produce the left/right errors respectively, and on a
compile error `main` reports the message without executing any instruction. -/
theorem compile_error_characterization :
    (∀ toks : List Token, (∃ code, compile toks = Except.ok code) ↔ balanced toks = true) ∧
    (∀ toks : List Token,
      compile toks = Except.error "Unmatched right bracket!" ↔ goesNeg toks 0 = true) ∧
    (∀ toks : List Token,
      compile toks = Except.error "Unmatched left bracket!" ↔
        (goesNeg toks 0 = false ∧ balanced toks = false)) ∧
    compile [Token.T_LBRACKET] = Except.error "Unmatched left bracket!" ∧
    compile [Token.T_RBRACKET] = Except.error "Unmatched right bracket!" ∧
    (∀ (src : List Char) (lines : List (List Nat)) (fuel : Nat) (e : String),
      compile (parse src) = Except.error e →
      mainModel src lines fuel = MainResult.compileError e) := by
  have hclassify : ∀ toks : List Token,
      (balancedFrom toks 0 = true → ∃ code, compile toks = Except.ok code) ∧
      (goesNeg toks 0 = true → compile toks = Except.error "Unmatched right bracket!") ∧
      (goesNeg toks 0 = false → balancedFrom toks 0 = false →
        compile toks = Except.error "Unmatched left bracket!") := by
    intro toks
    have := compileAux_classify toks 0 [] []
    simpa [compile] using this
  refine ⟨?_, ?_, ?_, rfl, rfl, ?_⟩
  · intro toks
    constructor
    · rintro ⟨code, hc⟩
      cases hbal : balanced toks
      · cases hneg : goesNeg toks 0
        · rw [(hclassify toks).2.2 hneg (by simpa [balanced] using hbal)] at hc
          exact Except.noConfusion hc
        · rw [(hclassify toks).2.1 hneg] at hc
          exact Except.noConfusion hc
      · rfl
    · intro hbal
      exact (hclassify toks).1 (by simpa [balanced] using hbal)
  · intro toks
    constructor
    · intro hc
      cases hneg : goesNeg toks 0
      · cases hbal : balanced toks
        · rw [(hclassify toks).2.2 hneg (by simpa [balanced] using hbal)] at hc
          have := Except.error.inj hc
          simp at this
        · obtain ⟨code, hcode⟩ := (hclassify toks).1 (by simpa [balanced] using hbal)
          rw [hcode] at hc
          exact Except.noConfusion hc
      · rfl
    · exact (hclassify toks).2.1
  · intro toks
    constructor
    · intro hc
      cases hneg : goesNeg toks 0
      · cases hbal : balanced toks
        · exact ⟨rfl, rfl⟩
        · obtain ⟨code, hcode⟩ := (hclassify toks).1 (by simpa [balanced] using hbal)
          rw [hcode] at hc
          exact Except.noConfusion hc
      · rw [(hclassify toks).2.1 hneg] at hc
        have := Except.error.inj hc
        simp at this
    · rintro ⟨hneg, hbal⟩
      exact (hclassify toks).2.2 hneg (by simpa [balanced] using hbal)
  · intro src lines fuel e he
    simp [mainModel, he]

/-- Witness for C3: on the source `]` the pipeline reports the unmatched right
bracket and does not execute. -/
theorem compile_error_characterization_witness :
    mainModel "]".toList [] 5 = MainResult.compileError "Unmatched right bracket!" :=
  compile_error_characterization.2.2.2.2.2 "]".toList [] 5 "Unmatched right bracket!" rfl

/-- Claim C1 (refuted, code bug): `condense` does not remap jump targets, so
executing the condensed sequence is NOT behaviorally equivalent to executing
the uncondensed sequence.  For the program `[++]>` the compiler emits
`[JumpIfZero 4, Inc, Inc, Jump 0, Right]`; uncondensed execution takes the
zero-branch to index 4 and executes the `Right`, while condensed execution
(4 instructions) jumps to index 4 ≥ length and halts with the tape unmoved:
the final tapes differ. -/
theorem condense_changes_behavior :
    compile (parse "[++]>".toList) =
      Except.ok [OpCode.JumpIfZero 4, OpCode.Inc, OpCode.Inc, OpCode.Jump 0, OpCode.Right] ∧
    (run (condense [OpCode.JumpIfZero 4, OpCode.Inc, OpCode.Inc, OpCode.Jump 0, OpCode.Right])
        10 (initState [])).map State.tape ≠
      (run (List.map singleStep
          [OpCode.JumpIfZero 4, OpCode.Inc, OpCode.Inc, OpCode.Jump 0, OpCode.Right])
        10 (initState [])).map State.tape :=
  ⟨rfl, by decide⟩

set_option maxRecDepth 4096 in
/-- Claim C10 (refuted): the `u8` run counter of `condense` DOES overflow: a
run of 256 identical `Inc` instructions wraps the counter to 0, so the emitted
repeat count is 0, not the run length 256. -/
theorem condense_counter_overflow_cex :
    condense (List.replicate 256 OpCode.Inc) = [CondensedOpCode.Inc 0] ∧
    condense (List.replicate 256 OpCode.Inc) ≠ [CondensedOpCode.Inc 256] := by
  decide

/-- Claim C10 (amended): the run counter of `condense` is wrapping `u8`
arithmetic: a run of n identical instructions is emitted with repeat count
`n % 256`; in particular, for every run of length at most 255 the emitted
repeat count equals the run length, while longer runs overflow the counter. -/
theorem condense_run_length_mod (op : OpCode) (n : Nat) (h : 1 ≤ n) :
    condense (List.replicate n op) = emitGroup (op, n % 256) ∧
    (n ≤ 255 → condense (List.replicate n op) = emitGroup (op, n)) := by
  obtain ⟨m, rfl⟩ : ∃ m, n = m + 1 := ⟨n - 1, by omega⟩
  have hone : (1 + m) % 256 = (m + 1) % 256 := by
    have : 1 + m = m + 1 := by omega
    rw [this]
  have hg : groupRuns (List.replicate (m + 1) op) [] = [(op, (m + 1) % 256)] := by
    rw [List.replicate_succ]
    rw [show groupRuns (op :: List.replicate m op) [] =
        groupRuns (List.replicate m op) [(op, 1)] from by simp [groupRuns]]
    rw [groupRuns_replicate op m 1 [] (by omega), hone]
  constructor
  · rw [condense, hg]
    simp
  · intro hle
    rw [condense, hg]
    simp [Nat.mod_eq_of_lt (by omega : m + 1 < 256)]

/-- Witness for the amended C10: a run of three `Inc`s is emitted as `Inc 3`. -/
theorem condense_run_length_mod_witness :
    condense (List.replicate 3 OpCode.Inc) = emitGroup (OpCode.Inc, 3 % 256) ∧
    (3 ≤ 255 → condense (List.replicate 3 OpCode.Inc) = emitGroup (OpCode.Inc, 3)) :=
  condense_run_length_mod OpCode.Inc 3 (by decide)

/-- Claim C9: the interpreter imposes no termination heuristic: for the
program `+[]`, whose loop body never drives the tested cell to zero, after any
number k of interpreter steps the instruction pointer has not reached the
terminal state (pointer ≥ instruction count). -/
theorem no_termination_heuristic :
    compile (parse "+[]".toList) =
      Except.ok [OpCode.Inc, OpCode.JumpIfZero 3, OpCode.Jump 1] ∧
    condense [OpCode.Inc, OpCode.JumpIfZero 3, OpCode.Jump 1] = plusLoop ∧
    ∀ k : Nat, ∃ s : State, run plusLoop k (initState []) = some s ∧
      ¬ plusLoop.length ≤ s.idx := by
  refine ⟨rfl, by decide, ?_⟩
  intro k
  obtain ⟨s, hs, hinv⟩ := plusLoop_inv_run k (initState []) (Or.inl ⟨rfl, rfl⟩)
  refine ⟨s, hs, ?_⟩
  rcases hinv with ⟨h, _⟩ | ⟨h1 | h2, _⟩ <;> simp [plusLoop, *]

end BF
